import Mathlib

/-!
Verification development for the rubric-table normalization engine of
`app.py` (`parse_md_table` and `enforce_rules`).

Embedding conventions:
* Python strings are `List Char`; Unicode characters (`'配'`, `'、'`, …) are
  Lean `Char`s, matching Python's `str` code-point semantics.
* Python floats are idealized as exact rationals `ℚ`; `numpy`'s `round`
  (round-half-to-even) is modelled by `roundE` below, and `astype(int)` on
  the already-rounded column is the identity on the integer value.
* `pandas.DataFrame` is modelled by `RecordSet`: a header (list of column
  names) plus rows of cells.  A cell is either a string (as parsed) or an
  integer (after score enforcement); Python's `str(x)` on an integer cell is
  modelled by `render`.
* Exceptions are modelled by `Option`: `enforce_rules` returns `none`
  exactly where the Python code raises (`idxmax` on an empty column).
* The separator-row test `is_sep` is Python's
  `re.match(r"^\|?\s*:?-+:?\s*(\|\s*:?-+:?\s*)+\|?$", ln)`, embedded as a
  `RegularExpression` over `Char` and decided with Mathlib's `rmatch`.
-/

namespace App

/-- The whitespace characters matched by Python's `\s` (and stripped by
`str.strip()`) that can occur in text lines. -/
def wsChars : List Char :=
  [' ', '\t', '\n', '\r', '\x0b', '\x0c',
   '\x1c', '\x1d', '\x1e', '\x1f', '\x85', '\xa0',
   '\u1680', '\u2000', '\u2001', '\u2002', '\u2003', '\u2004', '\u2005',
   '\u2006', '\u2007', '\u2008', '\u2009', '\u200a',
   '\u2028', '\u2029', '\u202f', '\u205f', '\u3000']

/-- `isWs c` = Python `c.isspace()` / membership in the `\s` class. -/
def isWs (c : Char) : Bool := wsChars.contains c

/-- Strip whitespace from the left (half of Python `str.strip()`). -/
def dropWsLeft (l : List Char) : List Char := l.dropWhile isWs

/-- Python `str.strip()`: remove leading and trailing whitespace. -/
def stripWs (l : List Char) : List Char :=
  ((l.dropWhile isWs).reverse.dropWhile isWs).reverse

/-- Python `str.strip(c)` for a single character `c`: remove all leading and
trailing occurrences of `c`. -/
def stripChar (c : Char) (l : List Char) : List Char :=
  ((l.dropWhile (· = c)).reverse.dropWhile (· = c)).reverse

/-- Python `str.split(c)` for a one-character separator: split into the
(possibly empty) segments between occurrences of `c`.  `splitChar c [] = [[]]`
mirrors `"".split(c) == [""]`. -/
def splitChar (c : Char) : List Char → List (List Char)
  | [] => [[]]
  | a :: r =>
    if a = c then [] :: splitChar c r
    else
      match splitChar c r with
      | s :: ss => (a :: s) :: ss
      | [] => [[a]]

/-- Python `sub in s` (substring containment). -/
def containsSub (pat l : List Char) : Bool :=
  l.tails.any (fun t => pat.isPrefixOf t)

open RegularExpression in
/-- Union of single-character regular expressions (a character class). -/
def classRE (cs : List Char) : RegularExpression Char :=
  cs.foldr (fun c r => char c + r) 0

open RegularExpression in
/-- `r?` (zero or one occurrence). -/
def optRE (r : RegularExpression Char) : RegularExpression Char := r + 1

open RegularExpression in
/-- `\s*` -/
def wsStarRE : RegularExpression Char := (classRE wsChars).star

open RegularExpression in
/-- `:?-+:?` — one hyphen-run segment of a Markdown separator row. -/
def segRE : RegularExpression Char :=
  optRE (char ':') * (char '-' * (char '-').star) * optRE (char ':')

open RegularExpression in
/-- `\s*:?-+:?\s*` — a segment with surrounding whitespace. -/
def chunkRE : RegularExpression Char := wsStarRE * segRE * wsStarRE

open RegularExpression in
/-- `\|\s*:?-+:?\s*` — the repeated group of the separator-row pattern. -/
def loopRE : RegularExpression Char := char '|' * chunkRE

open RegularExpression in
/-- The full anchored pattern `^\|?\s*:?-+:?\s*(\|\s*:?-+:?\s*)+\|?$`
from `is_sep` in `app.py`. -/
def sepRE : RegularExpression Char :=
  optRE (char '|') * chunkRE * (loopRE * loopRE.star) * optRE (char '|')

/-- `is_sep(ln)` from `app.py`: does the whole line match the Markdown
separator-row pattern? -/
def is_sep (l : List Char) : Bool := sepRE.rmatch l

/-- A table cell: a string (as parsed) or an integer (after score
enforcement stores `astype(int)` values). -/
inductive Cell where
  | str (s : List Char)
  | int (n : ℤ)
deriving DecidableEq

/-- The ASCII digit character for `d < 10`. -/
def digitChar (d : ℕ) : Char := Char.ofNat (48 + d)

/-- Fuel-indexed most-significant-first decimal digit accumulator. -/
def natDigitsGo : ℕ → ℕ → List Char → List Char
  | 0, _, acc => acc
  | f + 1, n, acc => if n = 0 then acc else natDigitsGo f (n / 10) (digitChar (n % 10) :: acc)

/-- Decimal digit string of a natural number. -/
def natDigits (n : ℕ) : List Char := if n = 0 then ['0'] else natDigitsGo n n []

/-- Python `str(x)` for an integer `x`. -/
def render (n : ℤ) : List Char :=
  if n < 0 then '-' :: natDigits n.natAbs else natDigits n.natAbs

/-- Python `str(x)` on a cell (strings unchanged, integers rendered). -/
def cellStr : Cell → List Char
  | .str s => s
  | .int n => render n

/-- Numeric value of a decimal digit string (`int`/`float` digit folding). -/
def natVal (l : List Char) : ℕ := l.foldl (fun a c => 10 * a + (c.toNat - 48)) 0

/-- First alternative `[-+]?\d*\.\d+` of the `to_num` pattern, tried at the
current position: optional sign, optional integer part, a dot, a nonempty
fraction part; its `float` value. -/
def stripSign (l : List Char) : ℚ × List Char :=
  if l.head? = some '+' then (1, l.tail)
  else if l.head? = some '-' then (-1, l.tail)
  else (1, l)

/-- Value of the decimal alternative when it matches: sign times
`integer-part.fraction-part`. -/
def decMatch (l : List Char) : Option ℚ :=
  let s := stripSign l
  let ds := s.2.takeWhile Char.isDigit
  let rest := s.2.dropWhile Char.isDigit
  if rest.head? = some '.' then
    let fs := rest.tail.takeWhile Char.isDigit
    if fs.isEmpty then none
    else some (s.1 * ((natVal ds : ℚ) + (natVal fs : ℚ) / 10 ^ fs.length))
  else none

/-- Second alternative `\d+` of the `to_num` pattern, tried at the current
position (no sign is captured). -/
def intMatch (l : List Char) : Option ℚ :=
  match l with
  | c :: _ => if c.isDigit then some ((natVal (l.takeWhile Char.isDigit) : ℚ)) else none
  | [] => none

/-- The first match of `re.findall(r"[-+]?\d*\.\d+|\d+", s)` converted by
`float`, or `0.0` when there is none: scan left to right, trying the decimal
alternative before the integer alternative at each position. -/
def scanNum : List Char → ℚ
  | [] => 0
  | l@(_ :: r) =>
    match decMatch l with
    | some q => q
    | none =>
      match intMatch l with
      | some q => q
      | none => scanNum r

/-- `to_num(x)` from `app.py`. -/
def to_num (c : Cell) : ℚ := scanNum (cellStr c)

/-- The list separators tried, in this fixed order, by `clean_type`. -/
def sepChars : List Char := ['、', ',', '或']

/-- `clean_type(x)` from `app.py`: `str(x)` with all `' '` removed, then cut
by `t.split(sep)[0]` at the first separator of `sepChars` (in that trial
order) occurring in it. -/
def clean_type (c : Cell) : Cell :=
  let t := (cellStr c).filter (fun ch => ch ≠ ' ')
  match sepChars.find? (fun s => t.contains s) with
  | some s => Cell.str ((splitChar s t).headD t)
  | none => Cell.str t

/-- `numpy`/`pandas` `Series.round()`: round half to even. -/
def roundE (q : ℚ) : ℤ :=
  if q - ⌊q⌋ < 1 / 2 then ⌊q⌋
  else if 1 / 2 < q - ⌊q⌋ then ⌊q⌋ + 1
  else if 2 ∣ ⌊q⌋ then ⌊q⌋ else ⌊q⌋ + 1

/-- Accumulator for `idxmax`: strict improvement keeps the first maximum. -/
def idxmaxGo : List ℤ → ℕ → ℕ → ℤ → ℕ
  | [], _, b, _ => b
  | x :: t, i, b, m => if m < x then idxmaxGo t (i + 1) i x else idxmaxGo t (i + 1) b m

/-- `Series.idxmax()`: position of the first maximal entry; pandas raises
`ValueError` on an empty series, modelled by `none`. -/
def idxmax : List ℤ → Option ℕ
  | [] => none
  | x :: t => some (idxmaxGo t 1 0 x)

/-- The rescale-and-round stage of the score rule: when `0 < total` and
`total ≠ 100`, each value becomes `v / total * 100`; then every value is
rounded half-to-even and stored as an integer (`round().astype(int)`). -/
def scoreInts (vals : List ℚ) : List ℤ :=
  (if 0 < vals.sum ∧ vals.sum ≠ 100 then vals.map (fun v => v / vals.sum * 100) else vals).map
    roundE

/-- The remainder-correction stage: `diff = 100 - sum`; when nonzero it is
added to the entry at `idxmax` (`none` = the `ValueError` raised by `idxmax`
on an empty column). -/
def adjust (l : List ℤ) : Option (List ℤ) :=
  let diff := 100 - l.sum
  if diff = 0 then some l
  else
    match idxmax l with
    | some i => some (l.set i (l.getD i 0 + diff))
    | none => none

/-- A parsed table (`pandas.DataFrame`): shared column-name sequence plus
rows of cells. -/
structure RecordSet where
  header : List (List Char)
  rows : List (List Cell)
deriving DecidableEq

/-- Well-formedness from the data model (§3): distinct column names and
rectangular rows. -/
def WF (rs : RecordSet) : Prop :=
  rs.header.Nodup ∧ ∀ r ∈ rs.rows, r.length = rs.header.length

/-- Cell of a row at column index `j`. -/
def getC (r : List Cell) (j : ℕ) : Cell := (r[j]?).getD (Cell.str [])

/-- A whole column, as pandas reads `df[col]`. -/
def getColC (rows : List (List Cell)) (j : ℕ) : List Cell :=
  rows.map (fun r => getC r j)

/-- Column assignment `df[col] = series`. -/
def setCol (rows : List (List Cell)) (j : ℕ) (vals : List Cell) : List (List Cell) :=
  List.zipWith (fun r v => r.set j v) rows vals

/-- `next((c for c in df.columns if pat in c), None)`: index of the first
column whose name contains `pat` as a substring. -/
def findCol (pat : List Char) (hdr : List (List Char)) : Option ℕ :=
  hdr.findIdx? (fun c => containsSub pat c)

/-- The question-type column keyword. -/
def typePat : List Char := "題型".data

/-- The point-value column keyword. -/
def scorePat : List Char := "配分".data

/-- The type-rule pass of `enforce_rules(df)`: replace each cell of the
first column whose name contains the type keyword by its `clean_type`. -/
def typeRows (rs : RecordSet) : List (List Cell) :=
  match findCol typePat rs.header with
  | some j => rs.rows.map (fun r => r.set j (clean_type (getC r j)))
  | none => rs.rows

/-- `enforce_rules(df)` continued: the score rule applied after the type
rule. -/
def enforce_rules (rs : RecordSet) : Option RecordSet :=
  match findCol scorePat rs.header with
  | none => some ⟨rs.header, typeRows rs⟩
  | some j =>
    match adjust (scoreInts ((typeRows rs).map (fun r => to_num (getC r j)))) with
    | none => none
    | some ns => some ⟨rs.header, setCol (typeRows rs) j (ns.map Cell.int)⟩

/-- Pad a short body row with empty cells, truncate a long one
(`app.py` lines 118-124). -/
def normalizeRow (n : ℕ) (r : List (List Char)) : List (List Char) :=
  if r.length < n then r ++ List.replicate (n - r.length) [] else r.take n

/-- Split a table line into trimmed cells: `ln.strip("|").split("|")` with
`c.strip()` on each piece. -/
def splitRow (l : List Char) : List (List Char) :=
  (splitChar '|' (stripChar '|' l)).map stripWs

/-- `parse_md_table(md)` from `app.py`, taking the list of source lines
(`md.strip().splitlines()`); `none` is the `None` ("not a table") result. -/
def parse_md_table (mdLines : List (List Char)) : Option RecordSet :=
  let lines1 := (mdLines.filter (fun l => l.contains '|')).map stripWs
  if lines1.length < 2 then none
  else
    let lines2 := lines1.filter (fun l => !is_sep l)
    if lines2.length < 2 then none
    else
      match lines2 with
      | [] => none
      | h :: body =>
        let hdr := splitRow h
        some ⟨hdr, (body.map (fun l => normalizeRow hdr.length (splitRow l))).map
          (fun r => r.map Cell.str)⟩

/-! ### Specification-side predicates for the separator-row rule -/

/-- One delimiter-separated segment of a separator row, in the words of the
spec: optional whitespace, an optional colon, one or more hyphens, an
optional colon, optional whitespace. -/
def SegOk (s : List Char) : Prop :=
  ∃ (w₁ w₂ : List Char) (c₁ c₂ : Bool) (k : ℕ),
    (∀ c ∈ w₁, isWs c = true) ∧ (∀ c ∈ w₂, isWs c = true) ∧
    s = w₁ ++ (cond c₁ [':'] []) ++ List.replicate (k + 1) '-' ++ (cond c₂ [':'] []) ++ w₂

/-- Join segments with the `'|'` delimiter. -/
def joinPipe : List (List Char) → List Char
  | [] => []
  | [s] => s
  | s :: rest => s ++ '|' :: joinPipe rest

/-- The claim's reading of the separator-row rule: an optional leading and
trailing delimiter around one or more delimiter-separated segments
(`1 ≤ segs.length` admits the single-segment case such as `"|---|"`). -/
def ClaimSep (l : List Char) : Prop :=
  ∃ (a b : Bool) (segs : List (List Char)), 1 ≤ segs.length ∧ (∀ s ∈ segs, SegOk s) ∧
    l = (cond a ['|'] []) ++ joinPipe segs ++ (cond b ['|'] [])

/-- The corrected reading: the implemented pattern requires at least two
delimiter-separated segments. -/
def AmendSep (l : List Char) : Prop :=
  ∃ (a b : Bool) (segs : List (List Char)), 2 ≤ segs.length ∧ (∀ s ∈ segs, SegOk s) ∧
    l = (cond a ['|'] []) ++ joinPipe segs ++ (cond b ['|'] [])

/-! ### Concrete record sets used by the claim analyses -/

/-- Score cells `"30"`, `"30"`, `"50"` under a score column. -/
def rs30 : RecordSet :=
  ⟨[['預', '計', '配', '分']],
   [[Cell.str ['3', '0']], [Cell.str ['3', '0']], [Cell.str ['5', '0']]]⟩

/-- The enforced result of `rs30`. -/
def out30 : RecordSet :=
  ⟨[['預', '計', '配', '分']], [[Cell.int 27], [Cell.int 27], [Cell.int 46]]⟩

/-- Score cells `"12.5"`, `"13.5"`, `"74"` (summing to 100, so no rescale):
both rounding ties are decided to the even integer. -/
def rsTie : RecordSet :=
  ⟨[['預', '計', '配', '分']],
   [[Cell.str ['1', '2', '.', '5']], [Cell.str ['1', '3', '.', '5']], [Cell.str ['7', '4']]]⟩

/-- The enforced result of `rsTie`. -/
def outTie : RecordSet :=
  ⟨[['預', '計', '配', '分']], [[Cell.int 12], [Cell.int 14], [Cell.int 74]]⟩

/-- Score cells `"-5.5"` and `"1"`: the extracted values are `-5.5` and `1`. -/
def rsNeg : RecordSet :=
  ⟨[['預', '計', '配', '分']], [[Cell.str ['-', '5', '.', '5']], [Cell.str ['1']]]⟩

/-- The enforced result of `rsNeg`: a negative score survives. -/
def outNeg : RecordSet :=
  ⟨[['預', '計', '配', '分']], [[Cell.int (-6)], [Cell.int 106]]⟩

/-- A type-column record set whose single cell mixes two separator kinds. -/
def rsMix : RecordSet :=
  ⟨[['對', '應', '題', '型']], [[Cell.str ['A', ',', 'B', '、', 'C']]]⟩

/-- A two-column record set (type column and a remark column) used to
exhibit frame preservation. -/
def rsFrame : RecordSet :=
  ⟨[['對', '應', '題', '型'], ['備', '註']], [[Cell.str ['A', '、', 'B'], Cell.str ['x']]]⟩

/-- The enforced result of `rsFrame`. -/
def outFrame : RecordSet :=
  ⟨[['對', '應', '題', '型'], ['備', '註']], [[Cell.str ['A'], Cell.str ['x']]]⟩

/-! ### Helper lemmas about rounding -/

theorem roundE_intCast (n : ℤ) : roundE (n : ℚ) = n := by
  unfold roundE
  rw [Int.floor_intCast, sub_self]
  norm_num

theorem roundE_eq_self_of_lt {q : ℚ} {z : ℤ} (h1 : (z : ℚ) ≤ q)
    (h2 : q < (z : ℚ) + 1 / 2) : roundE q = z := by
  have hf : ⌊q⌋ = z := by
    rw [Int.floor_eq_iff]
    refine ⟨h1, ?_⟩
    linarith
  unfold roundE
  rw [hf, if_pos (by linarith)]

theorem roundE_eq_succ_of_gt {q : ℚ} {z : ℤ} (h1 : (z : ℚ) + 1 / 2 < q)
    (h2 : q < (z : ℚ) + 1) : roundE q = z + 1 := by
  have hf : ⌊q⌋ = z := by
    rw [Int.floor_eq_iff]
    constructor
    · linarith
    · linarith
  unfold roundE
  rw [hf, if_neg (by linarith), if_pos (by linarith)]

theorem roundE_half (z : ℤ) : roundE ((z : ℚ) + 1 / 2) = if 2 ∣ z then z else z + 1 := by
  have hf : ⌊(z : ℚ) + 1 / 2⌋ = z := by
    rw [Int.floor_eq_iff]
    constructor
    · linarith
    · linarith
  unfold roundE
  rw [hf]
  have hfr : (z : ℚ) + 1 / 2 - (z : ℚ) = 1 / 2 := by ring
  rw [hfr, if_neg (by norm_num), if_neg (by norm_num)]

/-! ### List and character helper lemmas -/

theorem splitChar_ne_nil (c : Char) (t : List Char) : splitChar c t ≠ [] := by
  cases t with
  | nil => simp [splitChar]
  | cons a r =>
    unfold splitChar
    by_cases h : a = c
    · simp [h]
    · simp only [if_neg h]
      cases splitChar c r <;> simp

theorem splitChar_headD (c : Char) (t : List Char) :
    (splitChar c t).headD t = t.takeWhile (fun x => x ≠ c) := by
  induction t with
  | nil => rfl
  | cons a r ih =>
    by_cases h : a = c
    · subst h
      simp [splitChar, List.takeWhile_cons]
    · unfold splitChar
      rw [if_neg h]
      cases hs : splitChar c r with
      | nil => exact absurd hs (splitChar_ne_nil c r)
      | cons s ss =>
        rw [hs] at ih
        simp only [List.headD_cons] at ih
        simp [List.takeWhile_cons, h, ih]

theorem not_mem_takeWhile_ne (c : Char) (t : List Char) :
    c ∉ t.takeWhile (fun x => x ≠ c) := by
  intro h
  have := List.mem_takeWhile_imp h
  simp at this

theorem takeWhile_all {p : Char → Bool} {l : List Char} (h : ∀ c ∈ l, p c = true) :
    l.takeWhile p = l := by
  induction l with
  | nil => rfl
  | cons a r ih =>
    simp only [List.takeWhile_cons, h a (by simp), if_pos]
    rw [ih (fun c hc => h c (by simp [hc]))]

theorem dropWhile_all {p : Char → Bool} {l : List Char} (h : ∀ c ∈ l, p c = true) :
    l.dropWhile p = [] := by
  induction l with
  | nil => rfl
  | cons a r ih =>
    simp only [List.dropWhile_cons, h a (by simp), if_pos]
    exact ih (fun c hc => h c (by simp [hc]))

theorem takeWhile_nil_of_all_not {p : Char → Bool} {l : List Char}
    (h : ∀ c ∈ l, p c = false) : l.takeWhile p = [] := by
  cases l with
  | nil => rfl
  | cons a r => simp [List.takeWhile_cons, h a (by simp)]

theorem takeWhile_append_stop {p : Char → Bool} {d : List Char} {x : Char} {r : List Char}
    (hd : ∀ c ∈ d, p c = true) (hx : p x = false) :
    (d ++ x :: r).takeWhile p = d := by
  induction d with
  | nil => simp [List.takeWhile_cons, hx]
  | cons a t ih =>
    simp only [List.cons_append, List.takeWhile_cons, hd a (by simp), if_pos]
    rw [ih (fun c hc => hd c (by simp [hc]))]

theorem dropWhile_append_stop {p : Char → Bool} {d : List Char} {x : Char} {r : List Char}
    (hd : ∀ c ∈ d, p c = true) (hx : p x = false) :
    (d ++ x :: r).dropWhile p = x :: r := by
  induction d with
  | nil => simp [List.dropWhile_cons, hx]
  | cons a t ih =>
    simp only [List.cons_append, List.dropWhile_cons, hd a (by simp), if_pos]
    exact ih (fun c hc => hd c (by simp [hc]))

theorem digit_ne_plus {c : Char} (h : c.isDigit = true) : c ≠ '+' := by
  intro e
  rw [e] at h
  exact absurd h (by decide)

theorem digit_ne_minus {c : Char} (h : c.isDigit = true) : c ≠ '-' := by
  intro e
  rw [e] at h
  exact absurd h (by decide)

theorem digit_ne_dot {c : Char} (h : c.isDigit = true) : c ≠ '.' := by
  intro e
  rw [e] at h
  exact absurd h (by decide)

/-! ### Lemmas about numeric extraction -/

theorem decMatch_none_of_no_digit {l : List Char} (h : ∀ c ∈ l, c.isDigit = false) :
    decMatch l = none := by
  have hs2 : ∀ c ∈ (stripSign l).2, c.isDigit = false := by
    unfold stripSign
    split
    · exact fun c hc => h c (List.mem_of_mem_tail hc)
    · split
      · exact fun c hc => h c (List.mem_of_mem_tail hc)
      · exact h
  simp only [decMatch]
  cases hh : ((stripSign l).2.dropWhile Char.isDigit).head? with
  | none => rw [if_neg (by simp)]
  | some y =>
    by_cases hy : y = '.'
    · subst hy
      rw [if_pos rfl]
      have htl : ∀ c ∈ ((stripSign l).2.dropWhile Char.isDigit).tail, c.isDigit = false :=
        fun c hc =>
          hs2 c (List.dropWhile_subset _ (List.mem_of_mem_tail hc))
      rw [takeWhile_nil_of_all_not htl]
      simp
    · rw [if_neg (by simp [hy])]

theorem scanNum_no_digit {l : List Char} (h : ∀ c ∈ l, c.isDigit = false) :
    scanNum l = 0 := by
  induction l with
  | nil => rfl
  | cons a r ih =>
    have hr : ∀ c ∈ r, c.isDigit = false := fun c hc => h c (by simp [hc])
    have hint : intMatch (a :: r) = none := by
      simp [intMatch, h a (by simp)]
    simp only [scanNum, decMatch_none_of_no_digit h, hint]
    exact ih hr

theorem scanNum_digits {d : List Char} (hne : d ≠ []) (hd : ∀ c ∈ d, c.isDigit = true) :
    scanNum d = (natVal d : ℚ) := by
  cases d with
  | nil => exact absurd rfl hne
  | cons a r =>
    have ha := hd a (by simp)
    have hs : stripSign (a :: r) = (1, a :: r) := by
      unfold stripSign
      rw [if_neg (by simp [digit_ne_plus ha]), if_neg (by simp [digit_ne_minus ha])]
    have hdec : decMatch (a :: r) = none := by
      simp only [decMatch, hs]
      rw [dropWhile_all hd]
      simp
    have hint : intMatch (a :: r) = some ((natVal (a :: r) : ℚ)) := by
      simp only [intMatch, ha, if_pos]
      rw [takeWhile_all hd]
    simp only [scanNum, hdec, hint]

theorem scanNum_neg_int {d : List Char} (hne : d ≠ []) (hd : ∀ c ∈ d, c.isDigit = true) :
    scanNum ('-' :: d) = (natVal d : ℚ) := by
  have hs : stripSign ('-' :: d) = (-1, d) := by
    unfold stripSign
    simp
  have hdec : decMatch ('-' :: d) = none := by
    simp only [decMatch, hs]
    rw [dropWhile_all hd]
    simp
  have hint : intMatch ('-' :: d) = none := by
    simp [intMatch]
  simp only [scanNum, hdec, hint]
  exact scanNum_digits hne hd

theorem scanNum_neg_decimal {d f : List Char} (hd : ∀ c ∈ d, c.isDigit = true)
    (hfne : f ≠ []) (hf : ∀ c ∈ f, c.isDigit = true) :
    scanNum ('-' :: (d ++ '.' :: f)) =
      -((natVal d : ℚ) + (natVal f : ℚ) / 10 ^ f.length) := by
  have hs : stripSign ('-' :: (d ++ '.' :: f)) = (-1, d ++ '.' :: f) := by
    unfold stripSign
    simp
  have hdec : decMatch ('-' :: (d ++ '.' :: f)) =
      some (-((natVal d : ℚ) + (natVal f : ℚ) / 10 ^ f.length)) := by
    simp only [decMatch, hs]
    rw [takeWhile_append_stop hd (by decide), dropWhile_append_stop hd (by decide)]
    simp only [List.head?_cons, if_pos, List.tail_cons]
    rw [takeWhile_all hf]
    rw [if_neg (by simp [hfne])]
    rw [neg_one_mul]
  simp only [scanNum, hdec]

theorem scanNum_decimal {d f : List Char} (hdne : d ≠ []) (hd : ∀ c ∈ d, c.isDigit = true)
    (hfne : f ≠ []) (hf : ∀ c ∈ f, c.isDigit = true) :
    scanNum (d ++ '.' :: f) = (natVal d : ℚ) + (natVal f : ℚ) / 10 ^ f.length := by
  cases d with
  | nil => exact absurd rfl hdne
  | cons a r =>
    have ha := hd a (by simp)
    have hs : stripSign ((a :: r) ++ '.' :: f) = (1, (a :: r) ++ '.' :: f) := by
      unfold stripSign
      rw [if_neg (by simp [digit_ne_plus ha]), if_neg (by simp [digit_ne_minus ha])]
    have hdec : decMatch ((a :: r) ++ '.' :: f) =
        some ((natVal (a :: r) : ℚ) + (natVal f : ℚ) / 10 ^ f.length) := by
      simp only [decMatch, hs]
      rw [takeWhile_append_stop hd (by decide), dropWhile_append_stop hd (by decide)]
      simp only [List.head?_cons, if_pos, List.tail_cons]
      rw [takeWhile_all hf, if_neg (by simp [hfne]), one_mul]
    rw [List.cons_append]
    rw [List.cons_append] at hdec
    simp only [scanNum, hdec]

/-! ### Concrete evaluations of the score pipeline -/

theorem enforce_rs30_eval : enforce_rules rs30 = some out30 := by
  have e1 : findCol typePat [['預', '計', '配', '分']] = none := by decide
  have e2 : findCol scorePat [['預', '計', '配', '分']] = some 0 := by decide
  have t1 : to_num (getC [Cell.str ['3', '0']] 0) = 30 := by decide
  have t2 : to_num (getC [Cell.str ['5', '0']] 0) = 50 := by decide
  have hsum : List.sum [(30 : ℚ), 30, 50] = 110 := by norm_num
  have r1 : roundE ((30 : ℚ) / 110 * 100) = 27 :=
    roundE_eq_self_of_lt (by norm_num) (by norm_num)
  have r3 : roundE ((50 : ℚ) / 110 * 100) = 45 :=
    roundE_eq_self_of_lt (by norm_num) (by norm_num)
  have s1 : scoreInts [(30 : ℚ), 30, 50] = [27, 27, 45] := by
    unfold scoreInts
    rw [hsum, if_pos (by norm_num)]
    simp only [List.map, r1, r3]
  have a1 : adjust [(27 : ℤ), 27, 45] = some [27, 27, 46] := by decide
  simp only [enforce_rules, typeRows, rs30, e1, e2, List.map, t1, t2, s1, a1]
  decide

theorem enforce_rsTie_eval : enforce_rules rsTie = some outTie := by
  have e1 : findCol typePat [['預', '計', '配', '分']] = none := by decide
  have e2 : findCol scorePat [['預', '計', '配', '分']] = some 0 := by decide
  have t1 : to_num (getC [Cell.str ['1', '2', '.', '5']] 0) = 25 / 2 := by
    show scanNum ['1', '2', '.', '5'] = 25 / 2
    rw [show ['1', '2', '.', '5'] = ['1', '2'] ++ '.' :: ['5'] from rfl,
      scanNum_decimal (by decide) (by decide) (by decide) (by decide),
      show natVal ['1', '2'] = 12 from by decide, show natVal ['5'] = 5 from by decide]
    push_cast
    norm_num
  have t2 : to_num (getC [Cell.str ['1', '3', '.', '5']] 0) = 27 / 2 := by
    show scanNum ['1', '3', '.', '5'] = 27 / 2
    rw [show ['1', '3', '.', '5'] = ['1', '3'] ++ '.' :: ['5'] from rfl,
      scanNum_decimal (by decide) (by decide) (by decide) (by decide),
      show natVal ['1', '3'] = 13 from by decide, show natVal ['5'] = 5 from by decide]
    push_cast
    norm_num
  have t3 : to_num (getC [Cell.str ['7', '4']] 0) = 74 := by decide
  have hsum : List.sum [(25 : ℚ) / 2, 27 / 2, 74] = 100 := by norm_num
  have r1 : roundE ((25 : ℚ) / 2) = 12 := by
    rw [show (25 : ℚ) / 2 = ((12 : ℤ) : ℚ) + 1 / 2 from by push_cast; norm_num, roundE_half]
    decide
  have r2 : roundE ((27 : ℚ) / 2) = 14 := by
    rw [show (27 : ℚ) / 2 = ((13 : ℤ) : ℚ) + 1 / 2 from by push_cast; norm_num, roundE_half]
    decide
  have r3 : roundE ((74 : ℚ)) = 74 := by
    rw [show (74 : ℚ) = ((74 : ℤ) : ℚ) from by norm_num, roundE_intCast]
  have s1 : scoreInts [(25 : ℚ) / 2, 27 / 2, 74] = [12, 14, 74] := by
    unfold scoreInts
    rw [hsum, if_neg (by norm_num)]
    simp only [List.map, r1, r2, r3]
  have a1 : adjust [(12 : ℤ), 14, 74] = some [12, 14, 74] := by decide
  simp only [enforce_rules, typeRows, rsTie, e1, e2, List.map, t1, t2, t3, s1, a1]
  decide

theorem to_num_m55 : to_num (getC [Cell.str ['-', '5', '.', '5']] 0) = -(11 / 2) := by
  show scanNum ['-', '5', '.', '5'] = -(11 / 2)
  rw [show ['-', '5', '.', '5'] = '-' :: (['5'] ++ '.' :: ['5']) from rfl,
    scanNum_neg_decimal (by decide) (by decide) (by decide),
    show natVal ['5'] = 5 from by decide]
  push_cast
  norm_num

theorem enforce_rsNeg_eval : enforce_rules rsNeg = some outNeg := by
  have e1 : findCol typePat [['預', '計', '配', '分']] = none := by decide
  have e2 : findCol scorePat [['預', '計', '配', '分']] = some 0 := by decide
  have t1 : to_num (getC [Cell.str ['-', '5', '.', '5']] 0) = -(11 / 2) := to_num_m55
  have t2 : to_num (getC [Cell.str ['1']] 0) = 1 := by decide
  have hsum : List.sum [-(11 / 2 : ℚ), 1] = -(9 / 2) := by norm_num
  have r1 : roundE (-(11 / 2 : ℚ)) = -6 := by
    rw [show -(11 / 2 : ℚ) = ((-6 : ℤ) : ℚ) + 1 / 2 from by push_cast; norm_num, roundE_half]
    decide
  have r2 : roundE ((1 : ℚ)) = 1 := by
    rw [show (1 : ℚ) = ((1 : ℤ) : ℚ) from by norm_num, roundE_intCast]
  have s1 : scoreInts [-(11 / 2 : ℚ), 1] = [-6, 1] := by
    unfold scoreInts
    rw [hsum, if_neg (by norm_num)]
    simp only [List.map, r1, r2]
  have a1 : adjust [(-6 : ℤ), 1] = some [-6, 106] := by decide
  simp only [enforce_rules, typeRows, rsNeg, e1, e2, List.map, t1, t2, s1, a1]
  decide

/-! ### Claim theorems -/

/-- Claim C3, counterexample: on the type cell `"A,B、C"` the enforced cell is
`"A,B"` — not the prefix `"A"` before the first separator occurring in the
cell — and the separator `','` remains in it. -/
theorem clean_type_counterexample :
    clean_type (Cell.str ['A', ',', 'B', '、', 'C']) = Cell.str ['A', ',', 'B'] ∧
    (['A', ',', 'B', '、', 'C'].takeWhile (fun x => !sepChars.contains x)) = ['A'] ∧
    (['A', ',', 'B'].contains ',') = true :=
  ⟨by decide, by decide, by decide⟩

/-- Claim C3 (amended): for a type cell containing a separator, `clean_type`
truncates the space-removed cell before the first occurrence of the
highest-priority separator present — priorities in the fixed trial order
`、`, `,`, `或` — and that chosen separator does not occur in the result
(lower-priority separators may survive). -/
theorem clean_type_priority_truncation (s : List Char)
    (h : ∃ c ∈ sepChars, ((s.filter (fun ch => ch ≠ ' ')).contains c) = true) :
    ∃ c ∈ sepChars,
      clean_type (Cell.str s) =
        Cell.str ((s.filter (fun ch => ch ≠ ' ')).takeWhile (fun x => x ≠ c)) ∧
      c ∉ ((s.filter (fun ch => ch ≠ ' ')).takeWhile (fun x => x ≠ c)) ∧
      (c = '、' ∨
        (c = ',' ∧ ((s.filter (fun ch => ch ≠ ' ')).contains '、') = false) ∨
        (c = '或' ∧ ((s.filter (fun ch => ch ≠ ' ')).contains '、') = false ∧
          ((s.filter (fun ch => ch ≠ ' ')).contains ',') = false)) := by
  by_cases h1 : ((s.filter (fun ch => ch ≠ ' ')).contains '、') = true
  · refine ⟨'、', by decide, ?_, not_mem_takeWhile_ne _ _, Or.inl rfl⟩
    have hfind : sepChars.find? (fun c => (s.filter (fun ch => ch ≠ ' ')).contains c) =
        some '、' := by
      rw [sepChars, List.find?_cons_of_pos _ h1]
    simp only [clean_type, cellStr, hfind, splitChar_headD]
  · by_cases h2 : ((s.filter (fun ch => ch ≠ ' ')).contains ',') = true
    · refine ⟨',', by decide, ?_, not_mem_takeWhile_ne _ _,
        Or.inr (Or.inl ⟨rfl, by simpa using h1⟩)⟩
      have hfind : sepChars.find? (fun c => (s.filter (fun ch => ch ≠ ' ')).contains c) =
          some ',' := by
        rw [sepChars, List.find?_cons_of_neg _ h1, List.find?_cons_of_pos _ h2]
      simp only [clean_type, cellStr, hfind, splitChar_headD]
    · by_cases h3 : ((s.filter (fun ch => ch ≠ ' ')).contains '或') = true
      · refine ⟨'或', by decide, ?_, not_mem_takeWhile_ne _ _,
          Or.inr (Or.inr ⟨rfl, by simpa using h1, by simpa using h2⟩)⟩
        have hfind : sepChars.find? (fun c => (s.filter (fun ch => ch ≠ ' ')).contains c) =
            some '或' := by
          rw [sepChars, List.find?_cons_of_neg _ h1, List.find?_cons_of_neg _ h2,
            List.find?_cons_of_pos _ h3]
        simp only [clean_type, cellStr, hfind, splitChar_headD]
      · obtain ⟨c, hc, hcont⟩ := h
        simp only [sepChars, List.mem_cons, List.not_mem_nil, or_false] at hc
        rcases hc with rfl | rfl | rfl
        · exact absurd hcont h1
        · exact absurd hcont h2
        · exact absurd hcont h3

/-- Witness for the amended C3 at the concrete type cell `"A、B"`. -/
theorem clean_type_priority_truncation_witness :
    ∃ c ∈ sepChars,
      clean_type (Cell.str ['A', '、', 'B']) =
        Cell.str ((['A', '、', 'B'].filter (fun ch => ch ≠ ' ')).takeWhile (fun x => x ≠ c)) ∧
      c ∉ ((['A', '、', 'B'].filter (fun ch => ch ≠ ' ')).takeWhile (fun x => x ≠ c)) ∧
      (c = '、' ∨
        (c = ',' ∧ ((['A', '、', 'B'].filter (fun ch => ch ≠ ' ')).contains '、') = false) ∨
        (c = '或' ∧ ((['A', '、', 'B'].filter (fun ch => ch ≠ ' ')).contains '、') = false ∧
          ((['A', '、', 'B'].filter (fun ch => ch ≠ ' ')).contains ',') = false)) :=
  clean_type_priority_truncation ['A', '、', 'B'] ⟨'、', by decide, by decide⟩

/-- Claim C4 (code-bug evidence): on the empty record set with a score
column, `enforce_rules` raises (modelled `none`) instead of returning the
record set unchanged; with no score column the empty record set is returned
unchanged. -/
theorem enforce_empty_score_raises :
    enforce_rules ⟨[['預', '計', '配', '分']], []⟩ = none ∧
    enforce_rules ⟨[['單', '元']], []⟩ = some ⟨[['單', '元']], []⟩ := by
  constructor <;> decide

/-- Claim C7, counterexample: the cell `"-5"` extracts `5`, not `-5` — the
sign of a bare integer is not captured by the pattern. -/
theorem to_num_neg_int_counterexample :
    to_num (Cell.str ['-', '5']) = 5 ∧ ¬ to_num (Cell.str ['-', '5']) = -5 := by
  constructor <;> decide

/-- Claim C7 (amended): the extracted value is the first pattern match,
where a leading sign is part of the match only for decimals containing a
dot: digit-free cells give 0, `-digits` gives the unsigned value, and
`-digits.digits` gives the signed decimal value. -/
theorem to_num_sign_policy :
    (∀ s : List Char, (∀ c ∈ s, c.isDigit = false) → to_num (Cell.str s) = 0) ∧
    (∀ d : List Char, d ≠ [] → (∀ c ∈ d, c.isDigit = true) →
      to_num (Cell.str ('-' :: d)) = (natVal d : ℚ) ∧
      to_num (Cell.str d) = (natVal d : ℚ)) ∧
    (∀ d f : List Char, (∀ c ∈ d, c.isDigit = true) → f ≠ [] → (∀ c ∈ f, c.isDigit = true) →
      to_num (Cell.str ('-' :: (d ++ '.' :: f))) =
        -((natVal d : ℚ) + (natVal f : ℚ) / 10 ^ f.length)) :=
  ⟨fun _ h => scanNum_no_digit h,
   fun _ h1 h2 => ⟨scanNum_neg_int h1 h2, scanNum_digits h1 h2⟩,
   fun _ _ h1 h2 h3 => scanNum_neg_decimal h1 h2 h3⟩

/-- Witness for the amended C7 at `"-5"` and `"-5.5"`. -/
theorem to_num_sign_policy_witness :
    to_num (Cell.str ['-', '5']) = 5 ∧
    to_num (Cell.str ['-', '5', '.', '5']) = -(11 / 2) := by
  constructor
  · have h := (to_num_sign_policy.2.1 ['5'] (by decide) (by decide)).1
    rw [h]
    decide
  · have h := to_num_sign_policy.2.2 ['5'] ['5'] (by decide) (by decide) (by decide)
    rw [show (['-', '5', '.', '5'] : List Char) = '-' :: (['5'] ++ '.' :: ['5']) from rfl, h,
      show natVal ['5'] = 5 from by decide]
    push_cast
    norm_num

/-- Claim C9: on score cells `"30"`, `"30"`, `"50"` (total 110) the program
deterministically produces the integer split `27, 27, 46`: the values are
rescaled by `100/110`, rounded, and the remainder `1` is added to the
maximal entry; the final scores sum to exactly 100. -/
theorem enforce_30_30_50_deterministic :
    enforce_rules rs30 = some out30 ∧
    getColC out30.rows 0 = [Cell.int 27, Cell.int 27, Cell.int 46] ∧
    (27 + 27 + 46 : ℤ) = 100 :=
  ⟨enforce_rs30_eval, by decide, by decide⟩

/-- Claim C10: the rounding used by the score step is round-half-to-even:
whenever the fractional part is exactly one half, the result is the even one
of the two neighbouring integers; on score cells `"12.5"`, `"13.5"`, `"74"`
the pipeline rounds 12.5 down to 12 and 13.5 up to 14. -/
theorem score_rounding_half_even :
    (∀ x : ℚ, x - ⌊x⌋ = 1 / 2 →
      roundE x = (if Even ⌊x⌋ then ⌊x⌋ else ⌊x⌋ + 1) ∧ Even (roundE x)) ∧
    enforce_rules rsTie = some outTie := by
  constructor
  · intro x hx
    have h1 : roundE x = if Even ⌊x⌋ then ⌊x⌋ else ⌊x⌋ + 1 := by
      unfold roundE
      rw [hx, if_neg (by norm_num), if_neg (by norm_num)]
      simp only [← even_iff_two_dvd]
    refine ⟨h1, ?_⟩
    rw [h1]
    rcases Int.even_or_odd ⌊x⌋ with he | ho
    · rwa [if_pos he]
    · rw [if_neg (by simpa [Int.not_even_iff_odd] using ho)]
      exact ho.add_one
  · exact enforce_rsTie_eval

/-- Witness for C10: the two half ties of `rsTie` round to the even
neighbours 12 and 14. -/
theorem score_rounding_half_even_witness :
    roundE ((25 : ℚ) / 2) = 12 ∧ roundE ((27 : ℚ) / 2) = 14 := by
  have hf1 : ⌊(25 : ℚ) / 2⌋ = 12 := by
    rw [Int.floor_eq_iff]
    norm_num
  have hf2 : ⌊(27 : ℚ) / 2⌋ = 13 := by
    rw [Int.floor_eq_iff]
    norm_num
  constructor
  · have h := (score_rounding_half_even.1 ((25 : ℚ) / 2) (by rw [hf1]; norm_num)).1
    rw [hf1] at h
    rw [h, if_pos ⟨6, by norm_num⟩]
  · have h := (score_rounding_half_even.1 ((27 : ℚ) / 2) (by rw [hf2]; norm_num)).1
    rw [hf2] at h
    rw [h, if_neg (by rw [Int.even_iff]; decide)]
    decide

/-! ### Lemmas about parsing -/

theorem normalizeRow_length (n : ℕ) (r : List (List Char)) : (normalizeRow n r).length = n := by
  unfold normalizeRow
  split
  · rw [List.length_append, List.length_replicate]
    omega
  · rw [List.length_take]
    omega

theorem normalizeRow_getD (n : ℕ) (r : List (List Char)) (i : ℕ) (hi : i < n) :
    (normalizeRow n r).getD i [] = if i < r.length then r.getD i [] else [] := by
  unfold normalizeRow
  by_cases h1 : r.length < n
  · rw [if_pos h1]
    by_cases h2 : i < r.length
    · rw [if_pos h2, List.getD_eq_getElem?_getD, List.getD_eq_getElem?_getD,
        List.getElem?_append_left h2]
    · rw [if_neg h2, List.getD_eq_getElem?_getD, List.getElem?_append_right (by omega),
        List.getElem?_replicate, if_pos (by omega)]
      rfl
  · rw [if_neg h1]
    have h2 : i < r.length := by omega
    rw [if_pos h2, List.getD_eq_getElem?_getD, List.getD_eq_getElem?_getD,
      List.getElem?_take, if_pos hi]

/-- Claim C6: when parsing succeeds, every record has exactly the header's
width; the row normalizer pads a short row with empty cells on the right and
truncates a long row to its first `n` cells. -/
theorem parse_rows_header_width (mdLines : List (List Char)) (rs : RecordSet)
    (h : parse_md_table mdLines = some rs) :
    (∀ r ∈ rs.rows, r.length = rs.header.length) ∧
    (∀ (n : ℕ) (w : List (List Char)),
      (normalizeRow n w).length = n ∧
      ∀ i, i < n → (normalizeRow n w).getD i [] = if i < w.length then w.getD i [] else []) := by
  refine ⟨?_, fun n w => ⟨normalizeRow_length n w, fun i hi => normalizeRow_getD n w i hi⟩⟩
  simp only [parse_md_table] at h
  split at h
  · exact absurd h (by simp)
  · split at h
    · exact absurd h (by simp)
    · split at h
      · exact absurd h (by simp)
      · rw [Option.some_inj] at h
        subst h
        intro r hr
        simp only [List.mem_map] at hr
        obtain ⟨r0, ⟨w, _, rfl⟩, rfl⟩ := hr
        simp only [List.length_map]
        exact normalizeRow_length _ _

/-- Witness for C6: a two-column header with a one-cell body row parses with
the row padded to width 2. -/
theorem parse_rows_header_width_witness :
    parse_md_table [['|', 'a', '|', 'b', '|'], ['|', '1', '|']] =
      some ⟨[['a'], ['b']], [[Cell.str ['1'], Cell.str []]]⟩ ∧
    ([Cell.str ['1'], Cell.str []] : List Cell).length = 2 := by
  refine ⟨by decide, ?_⟩
  have := (parse_rows_header_width [['|', 'a', '|', 'b', '|'], ['|', '1', '|']]
    ⟨[['a'], ['b']], [[Cell.str ['1'], Cell.str []]]⟩ (by decide)).1
    [Cell.str ['1'], Cell.str []] (by decide)
  exact this.trans rfl

/-! ### Lemmas about rows, columns and the score adjustment -/

theorem getC_set_self {r : List Cell} {j : ℕ} (h : j < r.length) (v : Cell) :
    getC (r.set j v) j = v := by
  unfold getC
  rw [List.getElem?_set_self h]
  rfl

theorem getC_set_ne {r : List Cell} {i j : ℕ} (hne : i ≠ j) (v : Cell) :
    getC (r.set i v) j = getC r j := by
  unfold getC
  rw [List.getElem?_set_ne hne]

theorem set_getC_self {r : List Cell} {j : ℕ} (h : j < r.length) :
    r.set j (getC r j) = r := by
  induction r generalizing j with
  | nil => simp at h
  | cons a t ih =>
    cases j with
    | zero =>
      rw [show getC (a :: t) 0 = a from by simp [getC]]
      rfl
    | succ k =>
      rw [show getC (a :: t) (k + 1) = getC t k from by simp [getC], List.set_cons_succ,
        ih (Nat.lt_of_succ_lt_succ h)]

theorem map_self {α : Type} {f : α → α} {l : List α} (h : ∀ x ∈ l, f x = x) :
    l.map f = l := by
  induction l with
  | nil => rfl
  | cons a t ih => simp [h a (by simp), ih (fun x hx => h x (by simp [hx]))]

theorem setCol_length {rows : List (List Cell)} {j : ℕ} {vals : List Cell}
    (h : vals.length = rows.length) : (setCol rows j vals).length = rows.length := by
  unfold setCol
  rw [List.length_zipWith]
  omega

theorem setCol_cell_ne {rows : List (List Cell)} {j : ℕ} {vals : List Cell} {k j' : ℕ}
    (hlen : vals.length = rows.length) (hne : j' ≠ j) :
    getC ((setCol rows j vals).getD k []) j' = getC (rows.getD k []) j' := by
  induction rows generalizing vals k with
  | nil =>
    cases vals with
    | nil => rfl
    | cons v t => simp at hlen
  | cons r rt ih =>
    cases vals with
    | nil => simp at hlen
    | cons v vt =>
      cases k with
      | zero =>
        simp only [setCol, List.zipWith_cons_cons, List.getD_cons_zero]
        exact getC_set_ne (Ne.symm hne) v
      | succ k' =>
        simp only [setCol, List.zipWith_cons_cons, List.getD_cons_succ]
        have := @ih vt k' (by simpa using hlen)
        simpa only [setCol] using this

theorem map_set_cell_ne {rows : List (List Cell)} {j : ℕ} {f : List Cell → Cell} {k j' : ℕ}
    (hne : j' ≠ j) :
    getC ((rows.map (fun r => r.set j (f r))).getD k []) j' = getC (rows.getD k []) j' := by
  induction rows generalizing k with
  | nil => rfl
  | cons r rt ih =>
    cases k with
    | zero =>
      simp only [List.map_cons, List.getD_cons_zero]
      exact getC_set_ne (Ne.symm hne) _
    | succ k' =>
      simp only [List.map_cons, List.getD_cons_succ]
      exact ih

theorem getColC_setCol {rows : List (List Cell)} {j : ℕ} {vals : List Cell}
    (hlen : vals.length = rows.length) (hj : ∀ r ∈ rows, j < r.length) :
    getColC (setCol rows j vals) j = vals := by
  induction rows generalizing vals with
  | nil =>
    cases vals with
    | nil => rfl
    | cons v t => simp at hlen
  | cons r rt ih =>
    cases vals with
    | nil => simp at hlen
    | cons v vt =>
      simp only [setCol, List.zipWith_cons_cons, getColC, List.map_cons]
      rw [getC_set_self (hj r (by simp)) v]
      have := @ih vt (by simpa using hlen) (fun q hq => hj q (by simp [hq]))
      simp only [getColC, setCol] at this
      rw [this]

theorem setCol_getColC_self {rows : List (List Cell)} {j : ℕ}
    (hj : ∀ r ∈ rows, j < r.length) : setCol rows j (getColC rows j) = rows := by
  induction rows with
  | nil => rfl
  | cons r rt ih =>
    simp only [getColC, List.map_cons, setCol, List.zipWith_cons_cons]
    rw [set_getC_self (hj r (by simp))]
    have := ih (fun q hq => hj q (by simp [hq]))
    simp only [setCol, getColC] at this
    rw [this]

theorem setCol_map_set (rows : List (List Cell)) (j : ℕ) (g : List Cell → Cell)
    (vals : List Cell) :
    setCol (rows.map (fun r => r.set j (g r))) j vals = setCol rows j vals := by
  induction rows generalizing vals with
  | nil => rfl
  | cons r rt ih =>
    cases vals with
    | nil => rfl
    | cons v vt =>
      simp only [List.map_cons, setCol, List.zipWith_cons_cons, List.set_set]
      have := ih vt
      simp only [setCol] at this
      rw [this]

theorem mem_getColC {rows : List (List Cell)} {j : ℕ} {c : Cell}
    (h : c ∈ getColC rows j) : ∃ r ∈ rows, getC r j = c := by
  simp only [getColC, List.mem_map] at h
  obtain ⟨r, hr, rfl⟩ := h
  exact ⟨r, hr, rfl⟩

theorem idxmaxGo_lt (t : List ℤ) : ∀ (i b : ℕ) (m : ℤ), b < i →
    idxmaxGo t i b m < i + t.length := by
  induction t with
  | nil => intro i b m h; simpa using h
  | cons x s ih =>
    intro i b m h
    simp only [idxmaxGo, List.length_cons]
    split
    · have := ih (i + 1) i x (by omega)
      omega
    · have := ih (i + 1) b m (by omega)
      omega

theorem idxmax_lt {l : List ℤ} {i : ℕ} (h : idxmax l = some i) : i < l.length := by
  cases l with
  | nil => simp [idxmax] at h
  | cons x t =>
    simp only [idxmax, Option.some_inj] at h
    subst h
    have := idxmaxGo_lt t 1 0 x (by omega)
    simpa [Nat.add_comm] using this

theorem idxmax_isSome {l : List ℤ} (h : l ≠ []) : ∃ i, idxmax l = some i := by
  cases l with
  | nil => exact absurd rfl h
  | cons x t => exact ⟨_, rfl⟩

theorem sum_set_int (l : List ℤ) (i : ℕ) (v : ℤ) (h : i < l.length) :
    (l.set i v).sum = l.sum - l.getD i 0 + v := by
  induction l generalizing i with
  | nil => simp at h
  | cons a t ih =>
    cases i with
    | zero => simp [List.sum_cons]; omega
    | succ k =>
      simp only [List.set_cons_succ, List.sum_cons, List.getD_cons_succ]
      rw [ih k (by simpa using h)]
      omega

theorem adjust_sum {l l' : List ℤ} (h : adjust l = some l') : l'.sum = 100 := by
  unfold adjust at h
  by_cases hd : (100 : ℤ) - l.sum = 0
  · rw [if_pos hd, Option.some_inj] at h
    subst h
    omega
  · rw [if_neg hd] at h
    cases hi : idxmax l with
    | none => rw [hi] at h; exact absurd h (by simp)
    | some i =>
      rw [hi, Option.some_inj] at h
      subst h
      rw [sum_set_int l i _ (idxmax_lt hi)]
      omega

theorem adjust_length {l l' : List ℤ} (h : adjust l = some l') : l'.length = l.length := by
  unfold adjust at h
  by_cases hd : (100 : ℤ) - l.sum = 0
  · rw [if_pos hd, Option.some_inj] at h
    subst h
    rfl
  · rw [if_neg hd] at h
    cases hi : idxmax l with
    | none => rw [hi] at h; exact absurd h (by simp)
    | some i =>
      rw [hi, Option.some_inj] at h
      subst h
      exact List.length_set ..

theorem adjust_some_of_ne_nil {l : List ℤ} (h : l ≠ []) : ∃ l', adjust l = some l' := by
  unfold adjust
  by_cases hd : (100 : ℤ) - l.sum = 0
  · rw [if_pos hd]; exact ⟨l, rfl⟩
  · rw [if_neg hd]
    obtain ⟨i, hi⟩ := idxmax_isSome h
    rw [hi]
    exact ⟨_, rfl⟩

theorem adjust_of_sum_100 {l : List ℤ} (h : l.sum = 100) : adjust l = some l := by
  unfold adjust
  rw [h]
  simp

theorem scoreInts_length (vals : List ℚ) : (scoreInts vals).length = vals.length := by
  unfold scoreInts
  split <;> simp

theorem typeRows_length (rs : RecordSet) : (typeRows rs).length = rs.rows.length := by
  unfold typeRows
  split <;> simp

theorem typeRows_row_length {rs : RecordSet} {n : ℕ}
    (hwf : ∀ r ∈ rs.rows, r.length = n) : ∀ r ∈ typeRows rs, r.length = n := by
  unfold typeRows
  split
  · intro r hr
    simp only [List.mem_map] at hr
    obtain ⟨q, hq, rfl⟩ := hr
    rw [List.length_set]
    exact hwf q hq
  · exact hwf

theorem findCol_lt_length {pat : List Char} {hdr : List (List Char)} {j : ℕ}
    (h : findCol pat hdr = some j) : j < hdr.length := by
  unfold findCol at h
  exact (List.findIdx?_eq_some_iff_getElem.mp h).1

/-- Claim C8: `enforce_rules` preserves the column-name sequence, the number
and order of records, and every cell outside the identified type column and
identified score column; it only mutates cell values. -/
theorem enforce_frame_preservation (rs rs' : RecordSet)
    (h : enforce_rules rs = some rs') :
    rs'.header = rs.header ∧
    rs'.rows.length = rs.rows.length ∧
    ∀ k j', findCol typePat rs.header ≠ some j' → findCol scorePat rs.header ≠ some j' →
      getC (rs'.rows.getD k []) j' = getC (rs.rows.getD k []) j' := by
  unfold enforce_rules at h
  split at h
  next hs =>
    rw [Option.some_inj] at h
    subst h
    refine ⟨rfl, typeRows_length rs, ?_⟩
    intro k j' ht _
    show getC ((typeRows rs).getD k []) j' = _
    unfold typeRows
    cases ht2 : findCol typePat rs.header with
    | none => rfl
    | some jt => exact map_set_cell_ne (fun e => ht (by rw [ht2, e]))
  next js hs =>
    split at h
    next ha => exact absurd h (by simp)
    next ns ha =>
      rw [Option.some_inj] at h
      subst h
      have hlen_ns : (ns.map Cell.int).length = (typeRows rs).length := by
        rw [List.length_map, adjust_length ha, scoreInts_length, List.length_map]
      refine ⟨rfl, ?_, ?_⟩
      · show (setCol (typeRows rs) js (ns.map Cell.int)).length = _
        rw [setCol_length hlen_ns, typeRows_length]
      · intro k j' ht hsne
        have hjs' : j' ≠ js := fun e => hsne (by rw [hs, e])
        show getC ((setCol (typeRows rs) js (ns.map Cell.int)).getD k []) j' = _
        rw [setCol_cell_ne hlen_ns hjs']
        unfold typeRows
        cases ht2 : findCol typePat rs.header with
        | none => rfl
        | some jt => exact map_set_cell_ne (fun e => ht (by rw [ht2, e]))

/-- Witness for C8: a type-plus-remark table; the remark cell and the shape
survive enforcement while the type cell is single-valued. -/
theorem enforce_frame_preservation_witness :
    enforce_rules rsFrame = some outFrame ∧
    outFrame.header = rsFrame.header ∧
    outFrame.rows.length = rsFrame.rows.length ∧
    getC (outFrame.rows.getD 0 []) 1 = getC (rsFrame.rows.getD 0 []) 1 := by
  have h := enforce_frame_preservation rsFrame outFrame (by decide)
  exact ⟨by decide, h.1, h.2.1, h.2.2 0 1 (by decide) (by decide)⟩

/-- Claim C1 (amended): whenever a score column exists and enforcement
succeeds, the enforced score column consists of integers summing to exactly
100 (they need not be non-negative). -/
theorem score_sum_after_enforce (rs rs' : RecordSet) (j : ℕ)
    (hwf : WF rs)
    (hj : findCol scorePat rs.header = some j)
    (_hne : rs.rows ≠ [])
    (_hnz : ∃ r ∈ rs.rows, to_num (getC r j) ≠ 0)
    (h : enforce_rules rs = some rs') :
    ∃ ns : List ℤ, getColC rs'.rows j = ns.map Cell.int ∧ ns.sum = 100 := by
  unfold enforce_rules at h
  rw [hj] at h
  simp only [] at h
  split at h
  next ha => exact absurd h (by simp)
  next ns ha =>
    rw [Option.some_inj] at h
    subst h
    refine ⟨ns, ?_, adjust_sum ha⟩
    show getColC (setCol (typeRows rs) j (ns.map Cell.int)) j = ns.map Cell.int
    apply getColC_setCol
    · rw [List.length_map, adjust_length ha, scoreInts_length, List.length_map]
    · intro r hr
      rw [typeRows_row_length hwf.2 r hr]
      exact findCol_lt_length hj

/-- Witness for the amended C1 at the 30/30/50 table. -/
theorem score_sum_after_enforce_witness :
    ∃ ns : List ℤ, getColC out30.rows 0 = ns.map Cell.int ∧ ns.sum = 100 :=
  score_sum_after_enforce rs30 out30 0 ⟨by decide, by decide⟩ (by decide) (by decide)
    ⟨[Cell.str ['3', '0']], by decide, by decide⟩ enforce_rs30_eval

/-- Claim C1, counterexample: the premises of the claim hold for the
two-record table with score cells `"-5.5"` and `"1"`, yet enforcement
produces the negative score `-6` (the sum is still 100). -/
theorem score_negative_counterexample :
    (rsNeg.rows ≠ [] ∧ findCol scorePat rsNeg.header = some 0 ∧
      to_num (getC [Cell.str ['-', '5', '.', '5']] 0) ≠ 0) ∧
    enforce_rules rsNeg = some outNeg ∧
    getC (outNeg.rows.getD 0 []) 0 = Cell.int (-6) ∧ (-6 : ℤ) < 0 := by
  refine ⟨⟨by decide, by decide, ?_⟩, enforce_rsNeg_eval, by decide, by decide⟩
  rw [show to_num (getC [Cell.str ['-', '5', '.', '5']] 0) = -(11 / 2) from to_num_m55]
  norm_num

/-! ### Lemmas about integer rendering and re-extraction -/

theorem digitChar_toNat : ∀ d, d < 10 → (digitChar d).toNat = 48 + d := by decide

theorem digitChar_isDigit : ∀ d, d < 10 → (digitChar d).isDigit = true := by decide

theorem foldl_natVal_init (l : List Char) (a : ℕ) :
    l.foldl (fun acc c => 10 * acc + (c.toNat - 48)) a = a * 10 ^ l.length + natVal l := by
  induction l generalizing a with
  | nil => simp [natVal]
  | cons c t ih =>
    simp only [List.foldl_cons, List.length_cons]
    rw [ih]
    have h2 : natVal (c :: t) = (c.toNat - 48) * 10 ^ t.length + natVal t := by
      show List.foldl _ (10 * 0 + (c.toNat - 48)) t = _
      rw [ih]
      ring_nf
    rw [h2]
    ring

theorem natVal_cons (c : Char) (t : List Char) :
    natVal (c :: t) = (c.toNat - 48) * 10 ^ t.length + natVal t := by
  show List.foldl _ (10 * 0 + (c.toNat - 48)) t = _
  rw [foldl_natVal_init]
  ring_nf

theorem natDigitsGo_natVal : ∀ (f : ℕ), ∀ n ≤ f, ∀ (acc : List Char),
    natVal (natDigitsGo f n acc) = n * 10 ^ acc.length + natVal acc := by
  intro f
  induction f with
  | zero =>
    intro n hn acc
    interval_cases n
    simp [natDigitsGo]
  | succ f ih =>
    intro n hn acc
    by_cases h0 : n = 0
    · subst h0
      simp [natDigitsGo]
    · have hstep : natDigitsGo (f + 1) n acc =
          natDigitsGo f (n / 10) (digitChar (n % 10) :: acc) := by
        simp [natDigitsGo, h0]
      rw [hstep, ih (n / 10) (by
        have hlt : n / 10 < n := Nat.div_lt_self (Nat.pos_of_ne_zero h0) (by omega)
        omega) (digitChar (n % 10) :: acc)]
      rw [natVal_cons, digitChar_toNat (n % 10) (Nat.mod_lt n (by omega))]
      simp only [List.length_cons]
      have hv : (48 + n % 10 - 48) = n % 10 := by omega
      rw [hv, pow_succ]
      conv_rhs => rw [← Nat.div_add_mod n 10]
      ring

theorem natVal_natDigits (n : ℕ) : natVal (natDigits n) = n := by
  unfold natDigits
  split
  next h => subst h; decide
  next h =>
    rw [natDigitsGo_natVal n n (le_refl n) []]
    simp [natVal]

theorem natDigitsGo_ne_nil : ∀ (f n : ℕ) (acc : List Char),
    (n ≠ 0 ∧ 0 < f) ∨ acc ≠ [] → natDigitsGo f n acc ≠ [] := by
  intro f
  induction f with
  | zero =>
    intro n acc h
    rcases h with ⟨_, h2⟩ | h2
    · omega
    · simpa [natDigitsGo] using h2
  | succ f ih =>
    intro n acc h
    by_cases h0 : n = 0
    · subst h0
      rcases h with ⟨h1, _⟩ | h2
      · exact absurd rfl h1
      · simpa [natDigitsGo] using h2
    · rw [show natDigitsGo (f + 1) n acc = natDigitsGo f (n / 10) (digitChar (n % 10) :: acc)
        from by simp [natDigitsGo, h0]]
      exact ih (n / 10) (digitChar (n % 10) :: acc) (Or.inr (by simp))

theorem natDigits_ne_nil (n : ℕ) : natDigits n ≠ [] := by
  unfold natDigits
  split
  · simp
  next h => exact natDigitsGo_ne_nil n n [] (Or.inl ⟨h, by omega⟩)

theorem natDigitsGo_digits : ∀ (f n : ℕ) (acc : List Char),
    (∀ c ∈ acc, c.isDigit = true) → ∀ c ∈ natDigitsGo f n acc, c.isDigit = true := by
  intro f
  induction f with
  | zero =>
    intro n acc hacc
    simpa [natDigitsGo] using hacc
  | succ f ih =>
    intro n acc hacc
    by_cases h0 : n = 0
    · subst h0
      simpa [natDigitsGo] using hacc
    · rw [show natDigitsGo (f + 1) n acc = natDigitsGo f (n / 10) (digitChar (n % 10) :: acc)
        from by simp [natDigitsGo, h0]]
      refine ih (n / 10) _ ?_
      intro c hc
      rcases List.mem_cons.mp hc with rfl | hc2
      · exact digitChar_isDigit (n % 10) (Nat.mod_lt n (by omega))
      · exact hacc c hc2

theorem natDigits_digits (n : ℕ) : ∀ c ∈ natDigits n, c.isDigit = true := by
  unfold natDigits
  split
  · intro c hc
    simp only [List.mem_singleton] at hc
    subst hc
    decide
  · exact natDigitsGo_digits n n [] (by simp)

theorem render_chars (n : ℤ) : ∀ ch ∈ render n, ch.isDigit = true ∨ ch = '-' := by
  unfold render
  split
  · intro ch hch
    rcases List.mem_cons.mp hch with rfl | hch2
    · exact Or.inr rfl
    · exact Or.inl (natDigits_digits _ ch hch2)
  · exact fun ch hch => Or.inl (natDigits_digits _ ch hch)

theorem contains_eq_false_of_not_mem {l : List Char} {c : Char} (h : c ∉ l) :
    l.contains c = false := by
  simpa using h

theorem render_no_space (n : ℤ) : ∀ ch ∈ render n, ¬ ch = ' ' := by
  intro ch hch e
  rcases render_chars n ch hch with hd | hm
  · rw [e] at hd
    exact absurd hd (by decide)
  · rw [e] at hm
    exact absurd hm (by decide)

theorem render_no_sep (n : ℤ) : ∀ c ∈ sepChars, (render n).contains c = false := by
  intro c hc
  refine contains_eq_false_of_not_mem ?_
  intro hmem
  rcases render_chars n c hmem with hd | hm
  · rcases (show c = '、' ∨ c = ',' ∨ c = '或' by simpa [sepChars] using hc)
        with rfl | rfl | rfl <;>
      exact absurd hd (by decide)
  · subst hm
    exact absurd hc (by decide)

theorem to_num_int_nonneg (n : ℤ) (hn : 0 ≤ n) : to_num (Cell.int n) = (n : ℚ) := by
  show scanNum (render n) = (n : ℚ)
  unfold render
  rw [if_neg (by omega)]
  rw [scanNum_digits (natDigits_ne_nil _) (natDigits_digits _), natVal_natDigits]
  rw [Int.cast_natAbs]
  exact_mod_cast abs_of_nonneg hn

theorem clean_type_id_of_clean {s : List Char} (hsp : ∀ ch ∈ s, ¬ ch = ' ')
    (hsep : ∀ c ∈ sepChars, s.contains c = false) : clean_type (Cell.str s) = Cell.str s := by
  have h1 : (s.filter (fun ch => ch ≠ ' ')) = s :=
    List.filter_eq_self.mpr (fun ch hch => by simpa using hsp ch hch)
  have h2 : sepChars.find? (fun c => s.contains c) = none :=
    List.find?_eq_none.mpr (fun c hc => by simpa using hsep c hc)
  simp only [clean_type, cellStr, h1, h2]

theorem clean_type_int (n : ℤ) : clean_type (Cell.int n) = Cell.str (render n) := by
  have h1 : ((render n).filter (fun ch => ch ≠ ' ')) = render n :=
    List.filter_eq_self.mpr (fun ch hch => by simpa using render_no_space n ch hch)
  have h2 : sepChars.find? (fun c => (render n).contains c) = none :=
    List.find?_eq_none.mpr (fun c hc => by simpa using render_no_sep n c hc)
  simp only [clean_type, cellStr, h1, h2]

theorem sum_map_intCast (ns : List ℤ) : (ns.map (fun n : ℤ => (n : ℚ))).sum = (ns.sum : ℚ) := by
  induction ns with
  | nil => simp
  | cons a t ih =>
    rw [List.map_cons, List.sum_cons, List.sum_cons, ih]
    push_cast
    ring

theorem map_roundE_intCast (ns : List ℤ) : (ns.map (fun n : ℤ => (n : ℚ))).map roundE = ns := by
  induction ns with
  | nil => rfl
  | cons a t ih =>
    rw [List.map_cons, List.map_cons, roundE_intCast, ih]

theorem scoreInts_of_sum_100 {vals : List ℚ} (h : vals.sum = 100) :
    scoreInts vals = vals.map roundE := by
  unfold scoreInts
  rw [h, if_neg (by norm_num)]

/-! ### Structural facts about enforcement used for idempotence -/

theorem enforce_header_eq {rs rs' : RecordSet} (h : enforce_rules rs = some rs') :
    rs'.header = rs.header := by
  unfold enforce_rules at h
  split at h
  next => rw [Option.some_inj] at h; subst h; rfl
  next =>
    split at h
    next => exact absurd h (by simp)
    next => rw [Option.some_inj] at h; subst h; rfl

theorem enforce_rows_none {rs rs' : RecordSet} (h : enforce_rules rs = some rs')
    (hs : findCol scorePat rs.header = none) : rs'.rows = typeRows rs := by
  unfold enforce_rules at h
  rw [hs] at h
  rw [Option.some_inj] at h
  subst h
  rfl

theorem enforce_rows_some {rs rs' : RecordSet} {js : ℕ} (h : enforce_rules rs = some rs')
    (hs : findCol scorePat rs.header = some js) :
    ∃ ns, adjust (scoreInts ((typeRows rs).map (fun r => to_num (getC r js)))) = some ns ∧
      rs'.rows = setCol (typeRows rs) js (ns.map Cell.int) := by
  unfold enforce_rules at h
  rw [hs] at h
  simp only [] at h
  split at h
  next => exact absurd h (by simp)
  next ns ha =>
    rw [Option.some_inj] at h
    subst h
    exact ⟨ns, ha, rfl⟩

theorem setCol_row_length {rows : List (List Cell)} {j : ℕ} {vals : List Cell} {n : ℕ}
    (h : ∀ r ∈ rows, r.length = n) : ∀ r' ∈ setCol rows j vals, r'.length = n := by
  induction rows generalizing vals with
  | nil => simp [setCol]
  | cons r rt ih =>
    cases vals with
    | nil => simp [setCol]
    | cons v vt =>
      intro r' hr'
      simp only [setCol, List.zipWith_cons_cons, List.mem_cons] at hr'
      rcases hr' with rfl | hr'
      · rw [List.length_set]
        exact h r (by simp)
      · exact ih (fun q hq => h q (by simp [hq])) r' hr'

theorem mem_setCol {rows : List (List Cell)} {j : ℕ} {vals : List Cell} {r' : List Cell}
    (h : r' ∈ setCol rows j vals) : ∃ r ∈ rows, ∃ v, r' = r.set j v := by
  induction rows generalizing vals with
  | nil => simp [setCol] at h
  | cons r rt ih =>
    cases vals with
    | nil => simp [setCol] at h
    | cons v vt =>
      simp only [setCol, List.zipWith_cons_cons, List.mem_cons] at h
      rcases h with rfl | h
      · exact ⟨r, by simp, v, rfl⟩
      · obtain ⟨q, hq, w, hw⟩ := ih h
        exact ⟨q, by simp [hq], w, hw⟩

theorem enforce_rect {rs rs' : RecordSet}
    (hwf : ∀ r ∈ rs.rows, r.length = rs.header.length)
    (h : enforce_rules rs = some rs') :
    ∀ r ∈ rs'.rows, r.length = rs'.header.length := by
  rw [enforce_header_eq h]
  cases hs : findCol scorePat rs.header with
  | none =>
    rw [enforce_rows_none h hs]
    exact typeRows_row_length hwf
  | some js =>
    obtain ⟨ns, _, hrows⟩ := enforce_rows_some h hs
    rw [hrows]
    exact setCol_row_length (typeRows_row_length hwf)

theorem clean_type_shape (c : Cell) :
    ∃ s, clean_type c = Cell.str s ∧ ∀ ch ∈ s, ¬ ch = ' ' := by
  have hfil : ∀ ch ∈ (cellStr c).filter (fun x => x ≠ ' '), ¬ ch = ' ' := by
    intro ch hch
    simpa using List.of_mem_filter hch
  cases hfind : sepChars.find? (fun x => ((cellStr c).filter (fun ch => ch ≠ ' ')).contains x)
    with
  | none =>
    refine ⟨(cellStr c).filter (fun ch => ch ≠ ' '), ?_, hfil⟩
    simp only [clean_type, hfind]
  | some sep =>
    refine ⟨((cellStr c).filter (fun ch => ch ≠ ' ')).takeWhile (fun x => x ≠ sep), ?_, ?_⟩
    · simp only [clean_type, hfind, splitChar_headD]
    · intro ch hch
      exact hfil ch ((List.takeWhile_prefix _).sublist.subset hch)

theorem enforce_score_col_spec {rs rs' : RecordSet} {j : ℕ}
    (hwf : ∀ r ∈ rs.rows, r.length = rs.header.length)
    (hj : findCol scorePat rs.header = some j)
    (h : enforce_rules rs = some rs') :
    ∃ ns : List ℤ, getColC rs'.rows j = ns.map Cell.int ∧ ns.sum = 100 ∧
      rs'.rows = setCol (typeRows rs) j (ns.map Cell.int) := by
  obtain ⟨ns, ha, hrows⟩ := enforce_rows_some h hj
  refine ⟨ns, ?_, adjust_sum ha, hrows⟩
  rw [hrows]
  apply getColC_setCol
  · rw [List.length_map, adjust_length ha, scoreInts_length, List.length_map]
  · intro r hr
    rw [typeRows_row_length hwf r hr]
    exact findCol_lt_length hj

theorem enforce_type_cells {rs rs' : RecordSet} {jt : ℕ}
    (hwf : ∀ r ∈ rs.rows, r.length = rs.header.length)
    (h : enforce_rules rs = some rs')
    (ht : findCol typePat rs.header = some jt)
    (hnotscore : findCol scorePat rs.header ≠ some jt) :
    ∀ r ∈ rs'.rows, ∃ s, getC r jt = Cell.str s ∧ ∀ ch ∈ s, ¬ ch = ' ' := by
  have hjt : jt < rs.header.length := findCol_lt_length ht
  intro r hr
  cases hs : findCol scorePat rs.header with
  | none =>
    rw [enforce_rows_none h hs] at hr
    simp only [typeRows, ht] at hr
    obtain ⟨p, hp, rfl⟩ := List.mem_map.mp hr
    rw [getC_set_self (by rw [hwf p hp]; exact hjt)]
    exact clean_type_shape _
  | some js =>
    have hne : js ≠ jt := fun e => hnotscore (by rw [hs, e])
    obtain ⟨ns, _, hrows⟩ := enforce_rows_some h hs
    rw [hrows] at hr
    obtain ⟨q, hq, v, rfl⟩ := mem_setCol hr
    rw [getC_set_ne hne]
    simp only [typeRows, ht] at hq
    obtain ⟨p, hp, rfl⟩ := List.mem_map.mp hq
    rw [getC_set_self (by rw [hwf p hp]; exact hjt)]
    exact clean_type_shape _

theorem second_pass_vals {rs' : RecordSet} {js : ℕ} {ns : List ℤ}
    (hrect : ∀ r ∈ rs'.rows, r.length = rs'.header.length)
    (hjs : js < rs'.header.length)
    (hcol : getColC rs'.rows js = ns.map Cell.int)
    (hns : ∀ n ∈ ns, 0 ≤ n) :
    (typeRows rs').map (fun r => to_num (getC r js)) = ns.map (fun n : ℤ => (n : ℚ)) := by
  have key : (typeRows rs').map (fun r => to_num (getC r js)) =
      rs'.rows.map (fun r => to_num (getC r js)) := by
    cases ht : findCol typePat rs'.header with
    | none => simp only [typeRows, ht]
    | some jt =>
      simp only [typeRows, ht]
      rw [List.map_map]
      apply List.map_congr_left
      intro r hr
      show to_num (getC (r.set jt (clean_type (getC r jt))) js) = to_num (getC r js)
      by_cases hjj : jt = js
      · subst hjj
        rw [getC_set_self (by rw [hrect r hr]; exact hjs)]
        have hmem : getC r jt ∈ getColC rs'.rows jt := List.mem_map_of_mem _ hr
        rw [hcol] at hmem
        obtain ⟨n, _, hn⟩ := List.mem_map.mp hmem
        rw [← hn, clean_type_int]
        rfl
      · rw [getC_set_ne hjj]
  rw [key]
  have h2 : rs'.rows.map (fun r => to_num (getC r js)) = (getColC rs'.rows js).map to_num := by
    unfold getColC
    rw [List.map_map]
    rfl
  rw [h2, hcol, List.map_map]
  apply List.map_congr_left
  intro n hn
  exact to_num_int_nonneg n (hns n hn)

/-- Claim C2 (amended): `enforce` is idempotent on every record set whose
first enforcement succeeds, provided the first output's type cells contain
no remaining list separator and its scores are non-negative (both can fail:
a type cell mixing separators keeps a lower-priority one, and a negative
score re-extracts as its absolute value). -/
theorem enforce_idempotent_amended (rs rs' : RecordSet)
    (hwf : WF rs)
    (h : enforce_rules rs = some rs')
    (htype : ∀ jt, findCol typePat rs.header = some jt →
      ∀ r ∈ rs'.rows, ∀ c ∈ sepChars, ((cellStr (getC r jt)).contains c) = false)
    (hscore : ∀ js, findCol scorePat rs.header = some js →
      ∀ r ∈ rs'.rows, ∀ n : ℤ, getC r js = Cell.int n → 0 ≤ n) :
    enforce_rules rs' = some rs' := by
  have hhdr : rs'.header = rs.header := enforce_header_eq h
  have hrect' : ∀ r ∈ rs'.rows, r.length = rs'.header.length := enforce_rect hwf.2 h
  have htfix : ∀ jt, findCol typePat rs.header = some jt →
      findCol scorePat rs.header ≠ some jt → typeRows rs' = rs'.rows := by
    intro jt ht hnot
    simp only [typeRows, hhdr, ht]
    apply map_self
    intro r hr
    obtain ⟨s, hcell, hsp⟩ := enforce_type_cells hwf.2 h ht hnot r hr
    have hsep : ∀ c ∈ sepChars, s.contains c = false := by
      intro c hc
      have h2 := htype jt ht r hr c hc
      rwa [hcell] at h2
    rw [hcell, clean_type_id_of_clean hsp hsep, ← hcell]
    exact set_getC_self (by rw [hrect' r hr, hhdr]; exact findCol_lt_length ht)
  cases hs : findCol scorePat rs.header with
  | none =>
    simp only [enforce_rules, hhdr, hs]
    cases ht : findCol typePat rs.header with
    | none =>
      rw [show typeRows rs' = rs'.rows from by simp only [typeRows, hhdr, ht], ← hhdr]
    | some jt =>
      rw [htfix jt ht (by rw [hs]; simp), ← hhdr]
  | some js =>
    obtain ⟨ns, hcol, hsum, _⟩ := enforce_score_col_spec hwf.2 hs h
    have hns : ∀ n ∈ ns, 0 ≤ n := by
      intro n hn
      have hmem : Cell.int n ∈ getColC rs'.rows js := by
        rw [hcol]
        exact List.mem_map_of_mem _ hn
      obtain ⟨r, hr, hrc⟩ := mem_getColC hmem
      exact hscore js hs r hr n hrc
    have hjs' : js < rs'.header.length := by
      rw [hhdr]
      exact findCol_lt_length hs
    have hvals := second_pass_vals hrect' hjs' hcol hns
    simp only [enforce_rules, hhdr, hs]
    rw [hvals, scoreInts_of_sum_100 (by rw [sum_map_intCast, hsum]; norm_num),
      map_roundE_intCast, adjust_of_sum_100 hsum]
    have hbound : ∀ r ∈ rs'.rows, js < r.length := fun r hr => by
      rw [hrect' r hr]
      exact hjs'
    have hset : setCol (typeRows rs') js (ns.map Cell.int) = rs'.rows := by
      cases ht : findCol typePat rs.header with
      | none =>
        rw [show typeRows rs' = rs'.rows from by simp only [typeRows, hhdr, ht], ← hcol]
        exact setCol_getColC_self hbound
      | some jt =>
        by_cases hjj : jt = js
        · subst hjj
          simp only [typeRows, hhdr, ht]
          rw [setCol_map_set, ← hcol]
          exact setCol_getColC_self hbound
        · rw [htfix jt ht (by rw [hs]; exact fun e => hjj (Option.some.inj e).symm), ← hcol]
          exact setCol_getColC_self hbound
    show some (⟨rs.header, setCol (typeRows rs') js (ns.map Cell.int)⟩ : RecordSet) = some rs'
    rw [hset, ← hhdr]

/-- Claim C2, counterexample: on the single type cell `"A,B、C"` the first
enforcement yields `"A,B"` and the second `"A"`: `enforce (enforce rs)`
differs from `enforce rs`. -/
theorem enforce_not_idempotent_counterexample :
    enforce_rules rsMix = some ⟨[['對', '應', '題', '型']], [[Cell.str ['A', ',', 'B']]]⟩ ∧
    enforce_rules ⟨[['對', '應', '題', '型']], [[Cell.str ['A', ',', 'B']]]⟩ =
      some ⟨[['對', '應', '題', '型']], [[Cell.str ['A']]]⟩ ∧
    (Cell.str ['A'] : Cell) ≠ Cell.str ['A', ',', 'B'] := by
  refine ⟨by decide, by decide, by decide⟩

/-- Witness for the amended C2: the enforced 30/30/50 table is a fixed point
of enforcement. -/
theorem enforce_idempotent_amended_witness : enforce_rules out30 = some out30 := by
  refine enforce_idempotent_amended rs30 out30 ⟨by decide, by decide⟩ enforce_rs30_eval ?_ ?_
  · intro jt hjt
    rw [show findCol typePat rs30.header = none from by decide] at hjt
    exact absurd hjt (by simp)
  · intro js hjs r hr n hn
    have hjs0 : js = 0 := by
      rw [show findCol scorePat rs30.header = some 0 from by decide] at hjs
      exact (Option.some.inj hjs).symm
    subst hjs0
    have hr' : r = [Cell.int 27] ∨ r = [Cell.int 27] ∨ r = [Cell.int 46] := by
      simpa [out30] using hr
    rcases hr' with rfl | rfl | rfl <;>
      · simp only [getC, List.getElem?_cons_zero, Option.getD_some, Cell.int.injEq] at hn
        omega

/-! ### Language characterization of the separator-row pattern -/

theorem flatten_map_singleton (l : List Char) : (l.map (fun c => [c])).flatten = l := by
  induction l with
  | nil => rfl
  | cons c t ih => simp [ih]

theorem mem_classRE {cs : List Char} {x : List Char} :
    x ∈ (classRE cs).matches' ↔ ∃ c ∈ cs, x = [c] := by
  induction cs with
  | nil =>
    simp only [classRE, List.foldr_nil, RegularExpression.matches'_zero]
    exact ⟨fun h => absurd h (Language.not_mem_zero x), fun ⟨c, hc, _⟩ => absurd hc (by simp)⟩
  | cons c t ih =>
    simp only [classRE, List.foldr_cons] at *
    rw [RegularExpression.matches'_add, Language.mem_add, RegularExpression.matches'_char]
    constructor
    · rintro (h | h)
      · exact ⟨c, by simp, Set.mem_singleton_iff.mp h⟩
      · obtain ⟨d, hd, rfl⟩ := ih.mp h
        exact ⟨d, by simp [hd], rfl⟩
    · rintro ⟨d, hd, rfl⟩
      rcases List.mem_cons.mp hd with rfl | hd2
      · exact Or.inl rfl
      · exact Or.inr (ih.mpr ⟨d, hd2, rfl⟩)

theorem mem_wsStar {x : List Char} :
    x ∈ wsStarRE.matches' ↔ ∀ c ∈ x, c ∈ wsChars := by
  unfold wsStarRE
  rw [RegularExpression.matches'_star, Language.mem_kstar]
  constructor
  · rintro ⟨L, rfl, hL⟩
    intro c hc
    rw [List.mem_flatten] at hc
    obtain ⟨y, hy, hcy⟩ := hc
    obtain ⟨d, hd, rfl⟩ := mem_classRE.mp (hL y hy)
    rw [List.mem_singleton] at hcy
    subst hcy
    exact hd
  · intro hx
    refine ⟨x.map (fun c => [c]), (flatten_map_singleton x).symm, ?_⟩
    intro y hy
    rw [List.mem_map] at hy
    obtain ⟨c, hc, rfl⟩ := hy
    exact mem_classRE.mpr ⟨c, hx c hc, rfl⟩

theorem charStar_aux (a : Char) : ∀ L : List (List Char),
    (∀ y ∈ L, y ∈ (RegularExpression.char a).matches') →
    L.flatten = List.replicate L.length a := by
  intro L
  induction L with
  | nil => intro _; rfl
  | cons y L' ih =>
    intro h
    have hy : y = [a] := by
      have h2 := h y (by simp)
      rwa [RegularExpression.matches'_char, Set.mem_singleton_iff] at h2
    subst hy
    simp only [List.flatten_cons, List.length_cons, List.replicate_succ, List.singleton_append]
    rw [ih (fun z hz => h z (by simp [hz]))]

theorem mem_charStar {x : List Char} {a : Char} :
    x ∈ (RegularExpression.char a).star.matches' ↔ ∃ k, x = List.replicate k a := by
  rw [RegularExpression.matches'_star, Language.mem_kstar]
  constructor
  · rintro ⟨L, rfl, hL⟩
    exact ⟨L.length, charStar_aux a L hL⟩
  · rintro ⟨k, rfl⟩
    refine ⟨List.replicate k [a], ?_, ?_⟩
    · induction k with
      | zero => rfl
      | succ k ih => simp only [List.replicate_succ, List.flatten_cons, ih, List.singleton_append]
    · intro y hy
      rw [List.eq_of_mem_replicate hy, RegularExpression.matches'_char]
      rfl

theorem mem_optChar {x : List Char} {a : Char} :
    x ∈ (optRE (RegularExpression.char a)).matches' ↔ x = [a] ∨ x = [] := by
  unfold optRE
  rw [RegularExpression.matches'_add, Language.mem_add, RegularExpression.matches'_char]
  constructor
  · rintro (h | h)
    · exact Or.inl (Set.mem_singleton_iff.mp h)
    · exact Or.inr (Language.mem_one x |>.mp (by simpa using h))
  · rintro (rfl | rfl)
    · exact Or.inl rfl
    · exact Or.inr (by simp [Language.mem_one])

theorem mem_hyphens {x : List Char} :
    x ∈ (RegularExpression.char '-' * (RegularExpression.char '-').star).matches' ↔
      ∃ k, x = List.replicate (k + 1) '-' := by
  rw [RegularExpression.matches'_mul, Language.mem_mul]
  constructor
  · rintro ⟨a, ha, b, hb, rfl⟩
    rw [RegularExpression.matches'_char, Set.mem_singleton_iff] at ha
    subst ha
    obtain ⟨k, rfl⟩ := mem_charStar.mp hb
    exact ⟨k, by simp [List.replicate_succ]⟩
  · rintro ⟨k, rfl⟩
    refine ⟨['-'], by rw [RegularExpression.matches'_char]; rfl,
      List.replicate k '-', mem_charStar.mpr ⟨k, rfl⟩, by simp [List.replicate_succ]⟩

theorem mem_segRE {x : List Char} :
    x ∈ segRE.matches' ↔ ∃ (c₁ c₂ : Bool) (k : ℕ),
      x = (cond c₁ [':'] []) ++ List.replicate (k + 1) '-' ++ (cond c₂ [':'] []) := by
  unfold segRE
  rw [RegularExpression.matches'_mul, Language.mem_mul]
  constructor
  · rintro ⟨a, ha, b, hb, rfl⟩
    rw [RegularExpression.matches'_mul, Language.mem_mul] at ha
    obtain ⟨a1, ha1, a2, ha2, rfl⟩ := ha
    obtain ⟨k, rfl⟩ := mem_hyphens.mp ha2
    rcases mem_optChar.mp ha1 with rfl | rfl <;> rcases mem_optChar.mp hb with rfl | rfl
    · exact ⟨true, true, k, by simp⟩
    · exact ⟨true, false, k, by simp⟩
    · exact ⟨false, true, k, by simp⟩
    · exact ⟨false, false, k, by simp⟩
  · rintro ⟨c₁, c₂, k, rfl⟩
    refine ⟨(cond c₁ [':'] []) ++ List.replicate (k + 1) '-', ?_, cond c₂ [':'] [], ?_,
      by simp [List.append_assoc]⟩
    · rw [RegularExpression.matches'_mul, Language.mem_mul]
      refine ⟨cond c₁ [':'] [], ?_, List.replicate (k + 1) '-', mem_hyphens.mpr ⟨k, rfl⟩, rfl⟩
      cases c₁ <;> simp [mem_optChar]
    · cases c₂ <;> simp [mem_optChar]

theorem isWs_iff_mem {c : Char} : isWs c = true ↔ c ∈ wsChars := by
  simp [isWs]

theorem mem_chunkRE {x : List Char} : x ∈ chunkRE.matches' ↔ SegOk x := by
  unfold chunkRE SegOk
  rw [RegularExpression.matches'_mul, Language.mem_mul]
  constructor
  · rintro ⟨a, ha, w₂, hw₂, rfl⟩
    rw [RegularExpression.matches'_mul, Language.mem_mul] at ha
    obtain ⟨w₁, hw₁, seg, hseg, rfl⟩ := ha
    obtain ⟨c₁, c₂, k, rfl⟩ := mem_segRE.mp hseg
    refine ⟨w₁, w₂, c₁, c₂, k, ?_, ?_, by simp [List.append_assoc]⟩
    · exact fun c hc => isWs_iff_mem.mpr (mem_wsStar.mp hw₁ c hc)
    · exact fun c hc => isWs_iff_mem.mpr (mem_wsStar.mp hw₂ c hc)
  · rintro ⟨w₁, w₂, c₁, c₂, k, hw₁, hw₂, rfl⟩
    refine ⟨w₁ ++ ((cond c₁ [':'] []) ++ List.replicate (k + 1) '-' ++ (cond c₂ [':'] [])), ?_,
      w₂, mem_wsStar.mpr (fun c hc => isWs_iff_mem.mp (hw₂ c hc)), by simp [List.append_assoc]⟩
    rw [RegularExpression.matches'_mul, Language.mem_mul]
    exact ⟨w₁, mem_wsStar.mpr (fun c hc => isWs_iff_mem.mp (hw₁ c hc)),
      _, mem_segRE.mpr ⟨c₁, c₂, k, rfl⟩, rfl⟩

theorem mem_loopRE {y : List Char} : y ∈ loopRE.matches' ↔ ∃ s, SegOk s ∧ y = '|' :: s := by
  unfold loopRE
  rw [RegularExpression.matches'_mul, Language.mem_mul]
  constructor
  · rintro ⟨a, ha, b, hb, rfl⟩
    rw [RegularExpression.matches'_char, Set.mem_singleton_iff] at ha
    subst ha
    exact ⟨b, mem_chunkRE.mp hb, rfl⟩
  · rintro ⟨s, hs, rfl⟩
    exact ⟨['|'], by rw [RegularExpression.matches'_char]; rfl, s, mem_chunkRE.mpr hs, rfl⟩

theorem loopStar_aux : ∀ L : List (List Char), (∀ y ∈ L, y ∈ loopRE.matches') →
    ∃ S : List (List Char), (∀ s ∈ S, SegOk s) ∧
      L.flatten = (S.map (fun s => '|' :: s)).flatten := by
  intro L
  induction L with
  | nil => exact fun _ => ⟨[], by simp, rfl⟩
  | cons y L' ih =>
    intro hL
    obtain ⟨S', hS', hflat⟩ := ih (fun z hz => hL z (by simp [hz]))
    obtain ⟨s, hs, hy⟩ := mem_loopRE.mp (hL y (by simp))
    subst hy
    refine ⟨s :: S', ?_, ?_⟩
    · intro t ht
      rcases List.mem_cons.mp ht with rfl | ht2
      · exact hs
      · exact hS' t ht2
    · simp only [List.flatten_cons, List.map_cons, hflat]

theorem mem_loopStar {x : List Char} :
    x ∈ loopRE.star.matches' ↔
      ∃ S : List (List Char), (∀ s ∈ S, SegOk s) ∧
        x = (S.map (fun s => '|' :: s)).flatten := by
  rw [RegularExpression.matches'_star, Language.mem_kstar]
  constructor
  · rintro ⟨L, rfl, hL⟩
    obtain ⟨S, hS, heq⟩ := loopStar_aux L hL
    exact ⟨S, hS, heq⟩
  · rintro ⟨S, hS, rfl⟩
    refine ⟨S.map (fun s => '|' :: s), rfl, ?_⟩
    intro y hy
    rw [List.mem_map] at hy
    obtain ⟨s, hsS, rfl⟩ := hy
    exact mem_loopRE.mpr ⟨s, hS s hsS, rfl⟩

theorem joinPipe_map_flatten : ∀ (s : List Char) (S : List (List Char)),
    joinPipe (s :: S) = s ++ (S.map (fun t => '|' :: t)).flatten := by
  intro s S
  induction S generalizing s with
  | nil => simp [joinPipe]
  | cons t S' ih =>
    show s ++ '|' :: joinPipe (t :: S') = _
    rw [ih t]
    simp

/-- Claim C5 (amended): a line is recognized as a separator row iff it
consists of an optional leading delimiter, AT LEAST TWO delimiter-separated
segments — each optional whitespace, an optional colon, one or more hyphens,
an optional colon, optional whitespace — and an optional trailing delimiter;
in particular a one-column divider such as `"|---|"` is not discarded. -/
theorem is_sep_iff_two_segments (l : List Char) : is_sep l = true ↔ AmendSep l := by
  unfold is_sep AmendSep
  rw [RegularExpression.rmatch_iff_matches']
  unfold sepRE
  rw [RegularExpression.matches'_mul, Language.mem_mul]
  constructor
  · rintro ⟨u, hu, pb, hpb, rfl⟩
    rw [RegularExpression.matches'_mul, Language.mem_mul] at hu
    obtain ⟨v, hv, looppart, hloop, rfl⟩ := hu
    rw [RegularExpression.matches'_mul, Language.mem_mul] at hv
    obtain ⟨pa, hpa, s₁, hs₁, rfl⟩ := hv
    rw [RegularExpression.matches'_mul, Language.mem_mul] at hloop
    obtain ⟨y₀, hy₀, rest, hrest, rfl⟩ := hloop
    obtain ⟨s₂, hs₂, rfl⟩ := mem_loopRE.mp hy₀
    obtain ⟨S, hS, rfl⟩ := mem_loopStar.mp hrest
    have hs₁' := mem_chunkRE.mp hs₁
    have hmem : ∀ t ∈ s₁ :: s₂ :: S, SegOk t := by
      intro t ht
      rcases List.mem_cons.mp ht with rfl | ht2
      · exact hs₁'
      · rcases List.mem_cons.mp ht2 with rfl | ht3
        · exact hs₂
        · exact hS t ht3
    have hjoin : joinPipe (s₁ :: s₂ :: S) =
        s₁ ++ ('|' :: s₂ ++ (S.map (fun t => '|' :: t)).flatten) := by
      rw [joinPipe_map_flatten s₁ (s₂ :: S)]
      simp
    rcases mem_optChar.mp hpa with rfl | rfl <;> rcases mem_optChar.mp hpb with rfl | rfl
    · exact ⟨true, true, s₁ :: s₂ :: S, by simp, hmem, by simp [hjoin, List.append_assoc]⟩
    · exact ⟨true, false, s₁ :: s₂ :: S, by simp, hmem, by simp [hjoin, List.append_assoc]⟩
    · exact ⟨false, true, s₁ :: s₂ :: S, by simp, hmem, by simp [hjoin, List.append_assoc]⟩
    · exact ⟨false, false, s₁ :: s₂ :: S, by simp, hmem, by simp [hjoin, List.append_assoc]⟩
  · rintro ⟨a, b, segs, hlen, hSok, rfl⟩
    match segs, hlen with
    | s₁ :: s₂ :: S, _ =>
      have ha : (cond a ['|'] []) ∈ (optRE (RegularExpression.char '|')).matches' := by
        cases a <;> simp [mem_optChar]
      have hb : (cond b ['|'] []) ∈ (optRE (RegularExpression.char '|')).matches' := by
        cases b <;> simp [mem_optChar]
      have hs₁ : s₁ ∈ chunkRE.matches' := mem_chunkRE.mpr (hSok s₁ (by simp))
      have hy₀ : ('|' :: s₂) ∈ loopRE.matches' :=
        mem_loopRE.mpr ⟨s₂, hSok s₂ (by simp), rfl⟩
      have hrest : (S.map (fun t => '|' :: t)).flatten ∈ loopRE.star.matches' :=
        mem_loopStar.mpr ⟨S, fun t ht => hSok t (by simp [ht]), rfl⟩
      have hloopmem : ('|' :: s₂ ++ (S.map (fun t => '|' :: t)).flatten) ∈
          (loopRE * loopRE.star).matches' := by
        rw [RegularExpression.matches'_mul, Language.mem_mul]
        exact ⟨'|' :: s₂, hy₀, _, hrest, rfl⟩
      have humem : ((cond a ['|'] []) ++ s₁ ++ ('|' :: s₂ ++ (S.map (fun t => '|' :: t)).flatten))
          ∈ (optRE (RegularExpression.char '|') * chunkRE * (loopRE * loopRE.star)).matches' := by
        rw [RegularExpression.matches'_mul, Language.mem_mul]
        refine ⟨(cond a ['|'] []) ++ s₁, ?_, _, hloopmem, rfl⟩
        rw [RegularExpression.matches'_mul, Language.mem_mul]
        exact ⟨_, ha, _, hs₁, rfl⟩
      refine ⟨_, humem, _, hb, ?_⟩
      rw [joinPipe_map_flatten s₁ (s₂ :: S)]
      simp [List.append_assoc]

/-- Claim C5, counterexample: `"|---|"` is a one-segment separator line in
the claim's reading, yet `is_sep` rejects it (the implemented pattern needs
at least two segments). -/
theorem is_sep_single_segment_counterexample :
    is_sep ("|---|".data) = false ∧ ClaimSep ("|---|".data) := by
  refine ⟨by decide, true, true, [['-', '-', '-']], by simp, ?_, by decide⟩
  intro s hs
  rw [List.mem_singleton] at hs
  subst hs
  exact ⟨[], [], false, false, 2, by simp, by simp, by decide⟩

/-- Witness for the amended C5: the two-segment divider `"|---|---|"` is
recognized by `is_sep`. -/
theorem is_sep_iff_two_segments_witness : is_sep ("|---|---|".data) = true := by
  refine (is_sep_iff_two_segments ("|---|---|".data)).mpr
    ⟨true, true, [['-', '-', '-'], ['-', '-', '-']], by simp, ?_, by decide⟩
  intro s hs
  have hseg : SegOk ['-', '-', '-'] := ⟨[], [], false, false, 2, by simp, by simp, by decide⟩
  rcases List.mem_cons.mp hs with rfl | hs2
  · exact hseg
  · rw [List.mem_singleton] at hs2
    subst hs2
    exact hseg

end App
